import Mathlib

/-!
Shallow embedding of the Wyckoff-1Min-Reader repository's reconciliation
logic, covering `add_stock.py` (Telegram command extraction and the flat
watchlist file) and `sheet_manager.py` (the tabular row store).

Conventions:
* Python strings are Lean `String`s, manipulated through their `List Char`
  data so that every operation is computable and kernel-reducible.
* Python sets of codes are `Finset String`.
* The regex `\d` is modelled as `Char.isDigit` (decimal digits) and
  `str.strip` as dropping `Char.isWhitespace` characters at both ends.
* Python values that can be `None`, `int`, `float` or `str` (the optional
  arguments of `add_or_update_stock`) are modelled by the `PyVal` type with
  Python truthiness.
-/

namespace Wyckoff

/-! ## Strings: strip, case folding, substring search, lexicographic order -/

/-- `str.strip()` on the underlying character list: drop whitespace from the
front and from the back. -/
def stripChars (cs : List Char) : List Char :=
  ((cs.dropWhile Char.isWhitespace).reverse.dropWhile Char.isWhitespace).reverse

/-- `str.strip()` on a Lean string. -/
def pyStrip (s : String) : String :=
  ⟨stripChars s.data⟩

/-- Does `pre` occur at the head of `l`? -/
def hasPrefix : List Char → List Char → Bool
  | _, [] => true
  | [], _ :: _ => false
  | a :: as, b :: bs => a == b && hasPrefix as bs

/-- Does `needle` occur as a contiguous substring of `hay`?  This models
`re.search` applied to a pattern that is an alternation of literals, one
literal at a time. -/
def hasSub : List Char → List Char → Bool
  | hay, needle =>
    if hasPrefix hay needle then true
    else
      match hay with
      | [] => false
      | _ :: t => hasSub t needle

/-- Case-insensitive search of any of the literal keywords inside the text
(`re.search(r"(kw1|kw2|...)", text, re.IGNORECASE)`); case folding is ASCII
`Char.toLower`, which is the identity on the Chinese keywords involved. -/
def searchAnyCI (kws : List String) (text : String) : Bool :=
  kws.any fun k => hasSub (text.data.map Char.toLower) (k.data.map Char.toLower)

/-- Lexicographic comparison of character lists by code point, the order
Python's `sorted` uses on strings. -/
def lexLe : List Char → List Char → Bool
  | [], _ => true
  | _ :: _, [] => false
  | a :: as, b :: bs =>
    if a < b then true
    else if b < a then false
    else lexLe as bs

/-- Python's `≤` on strings: lexicographic by code point. -/
def strLe (a b : String) : Prop := lexLe a.data b.data = true

instance : DecidableRel strLe := fun _ _ => instDecidableEqBool _ _

/-! ## add_stock.py: message model and command extraction -/

/-- One Telegram update, with exactly the fields `add_stock.main` reads:
the chat id (already stringified), the message text, the message date in
epoch seconds, and the update sequence number. -/
structure Message where
  chatId : String
  text : String
  date : Int
  updateId : Nat
deriving DecidableEq

/-- The aggregated intent of one batch of updates, as accumulated by the
loop in `add_stock.main`: `new_stocks`, `should_clear`, `should_view`, and
`latest_update_id`. -/
structure Intent where
  codesFound : Finset String
  clearRequested : Bool
  viewRequested : Bool
  latestUpdateId : Nat
deriving DecidableEq

/-- The accumulator at loop entry: empty set, both flags false,
`latest_update_id = 0`. -/
def initIntent : Intent := ⟨∅, false, false, 0⟩

/-- `re.findall(r"\d{6}", text)` scanning, with explicit fuel (the fuel is
always instantiated with the length of the text, which bounds the number of
steps): at each position, if the next six characters are all digits they
form a match and scanning resumes after them (regex matches do not
overlap); otherwise scanning advances by one character. -/
def findall6Go : Nat → List Char → List String
  | 0, _ => []
  | fuel + 1, cs =>
    match cs with
    | [] => []
    | _ :: rest =>
      if 6 ≤ cs.length ∧ (cs.take 6).all Char.isDigit then
        (⟨cs.take 6⟩ : String) :: findall6Go fuel (cs.drop 6)
      else
        findall6Go fuel rest

/-- All matches of `\d{6}` in a character list, in scanning order. -/
def findall6 (cs : List Char) : List String :=
  findall6Go cs.length cs

/-- The view keywords of 指令 1 in `add_stock.main`. -/
def viewKeywords : List String := ["查看", "查询", "列表", "list", "ls", "cx"]

/-- The clear keywords of 指令 2 in `add_stock.main`. -/
def clearKeywords : List String := ["清空", "clear"]

/-- The per-message filter of `add_stock.main`: skip when an authorized chat
id is configured (Python truthiness: a non-`None`, non-empty string) and the
message's chat id differs, or when the message is older than 2400 seconds. -/
def skipMessage (admin : Option String) (now : Int) (m : Message) : Bool :=
  (match admin with
   | Option.none => false
   | Option.some a => !(a == "") && !(m.chatId == a))
  || decide (2400 < now - m.date)

/-- One iteration of the message loop in `add_stock.main`: the maximum
update id is tracked before the authorization and freshness checks; an
unskipped message contributes its keyword flags and all its 6-digit runs. -/
def stepMessage (admin : Option String) (now : Int) (s : Intent) (m : Message) : Intent :=
  let latest := max s.latestUpdateId m.updateId
  if skipMessage admin now m then
    { s with latestUpdateId := latest }
  else
    { codesFound := s.codesFound ∪ (findall6 m.text.data).toFinset
      clearRequested := s.clearRequested || searchAnyCI clearKeywords m.text
      viewRequested := s.viewRequested || searchAnyCI viewKeywords m.text
      latestUpdateId := latest }

/-- The whole message loop of `add_stock.main`, producing the batch's
aggregated intent. -/
def extractIntent (admin : Option String) (now : Int) (updates : List Message) : Intent :=
  updates.foldl (stepMessage admin now) initIntent

/-! ## add_stock.py: watchlist reconciliation and the flat file -/

/-- Reading `stock_list.txt`: the set of stripped, non-empty lines
(`{line.strip() for line in f if line.strip()}`). -/
def readStocks (lines : List String) : Finset String :=
  ((lines.map pyStrip).filter (· ≠ "")).toFinset

/-- The starting set: an absent file is an empty set. -/
def existingOf : Option (List String) → Finset String
  | Option.none => ∅
  | Option.some ls => readStocks ls

/-- Steps 4 of `add_stock.main` at the level of sets: given the existing
set and the extracted codes and clear flag, return the final set together
with the `list_changed` flag.  A change happens iff `new_stocks` is
non-empty or a clear was requested; under a clear the final set is exactly
the batch's codes, otherwise it is the union. -/
def reconcile (existing codes : Finset String) (clear : Bool) :
    Finset String × Bool :=
  if codes ≠ ∅ ∨ clear = true then
    ((if clear then codes else existing ∪ codes), true)
  else
    (existing, false)

instance : IsTotal String strLe :=
  ⟨fun a b => by
    have go : ∀ x y : List Char, lexLe x y = true ∨ lexLe y x = true := by
      intro x
      induction x with
      | nil => intro y; left; rfl
      | cons c t ih =>
        intro y
        cases y with
        | nil => right; rfl
        | cons d u =>
          by_cases h1 : c < d
          · left; simp [lexLe, h1]
          · by_cases h2 : d < c
            · right; simp [lexLe, h2, asymm h2]
            · have hcd : c = d := le_antisymm (not_lt.mp h2) (not_lt.mp h1)
              subst hcd
              rcases ih u with h | h
              · left; simp [lexLe, h]
              · right; simp [lexLe, h]
    exact go a.data b.data⟩

instance : IsTrans String strLe :=
  ⟨fun a b c hab hbc => by
    have go : ∀ x y z : List Char,
        lexLe x y = true → lexLe y z = true → lexLe x z = true := by
      intro x
      induction x with
      | nil => intro y z _ _; rfl
      | cons cx t ih =>
        intro y z hxy hyz
        cases y with
        | nil => simp [lexLe] at hxy
        | cons cy u =>
          cases z with
          | nil => simp [lexLe] at hyz
          | cons cz v =>
            by_cases h1 : cx < cy
            · by_cases h2 : cy < cz
              · simp [lexLe, lt_trans h1 h2]
              · by_cases h3 : cz < cy
                · simp [lexLe, h3, asymm h3] at hyz
                · have : cy = cz := le_antisymm (not_lt.mp h3) (not_lt.mp h2)
                  subst this
                  simp [lexLe, h1]
            · by_cases h2 : cy < cx
              · simp [lexLe, h2, asymm h2] at hxy
              · have : cx = cy := le_antisymm (not_lt.mp h2) (not_lt.mp h1)
                subst this
                simp only [lexLe, lt_irrefl, if_false] at hxy
                by_cases h3 : cx < cz
                · simp [lexLe, h3]
                · by_cases h4 : cz < cx
                  · simp [lexLe, h4, asymm h4] at hyz
                  · have : cx = cz := le_antisymm (not_lt.mp h4) (not_lt.mp h3)
                    subst this
                    simp only [lexLe, lt_irrefl, if_false] at hyz ⊢
                    exact ih u v hxy hyz
    exact go a.data b.data c.data hab hbc⟩

instance : IsAntisymm String strLe :=
  ⟨fun a b hab hba => by
    have go : ∀ x y : List Char,
        lexLe x y = true → lexLe y x = true → x = y := by
      intro x
      induction x with
      | nil =>
        intro y _ hyx
        cases y with
        | nil => rfl
        | cons d u => simp [lexLe] at hyx
      | cons c t ih =>
        intro y hxy hyx
        cases y with
        | nil => simp [lexLe] at hxy
        | cons d u =>
          by_cases h1 : c < d
          · simp [lexLe, h1, asymm h1] at hyx
          · by_cases h2 : d < c
            · simp [lexLe, h2, asymm h2] at hxy
            · have hcd : c = d := le_antisymm (not_lt.mp h2) (not_lt.mp h1)
              subst hcd
              simp only [lexLe, lt_irrefl, if_false] at hxy hyx
              simp [ih u hxy hyx]
    cases a; cases b
    exact congrArg String.mk (go _ _ hab hba)⟩

/-- `sorted(final_list)` on a Python set of strings: sort any list
representation of the underlying multiset; well-defined because the order
is total, transitive and antisymmetric. -/
def sortStocks (s : Finset String) : List String :=
  Quotient.liftOn s.val (List.insertionSort strLe) fun _ _ h =>
    List.eq_of_perm_of_sorted
      (((List.perm_insertionSort strLe _).trans h).trans
        (List.perm_insertionSort strLe _).symm)
      (List.sorted_insertionSort strLe _)
      (List.sorted_insertionSort strLe _)

/-- Steps 2–4 of `add_stock.main` at the level of the file: read the
existing set, reconcile, and when a change happened overwrite the whole
file with the sorted final list (one code per line); otherwise the file is
untouched.  Returns the file contents and the `list_changed` flag. -/
def applyIntent (file : Option (List String)) (codes : Finset String)
    (clear : Bool) : Option (List String) × Bool :=
  let existing := existingOf file
  let r := reconcile existing codes clear
  (if r.2 then Option.some (sortStocks r.1) else file, r.2)

/-- The batch pipeline of `add_stock.main` restricted to the watchlist
file: extract the intent from the updates, then apply it. -/
def runBatch (admin : Option String) (now : Int) (file : Option (List String))
    (updates : List Message) : Option (List String) :=
  let i := extractIntent admin now updates
  (applyIntent file i.codesFound i.clearRequested).1

/-! ## Spec-side definitions for claim C1 (maximal digit runs) -/

/-- Accumulator pass splitting a character list into its maximal runs of
consecutive digits (`acc` holds the reversed current run). -/
def digitRunsGo : List Char → List Char → List (List Char)
  | acc, [] => if acc = [] then [] else [acc.reverse]
  | acc, c :: rest =>
    if c.isDigit then digitRunsGo (c :: acc) rest
    else if acc = [] then digitRunsGo [] rest
    else acc.reverse :: digitRunsGo [] rest

/-- The maximal runs of consecutive digits of a character list, in order. -/
def digitRuns (cs : List Char) : List (List Char) :=
  digitRunsGo [] cs

/-- The leading disjoint 6-character blocks of a run (fuel-driven like
`findall6Go`; the fuel is instantiated with the run's length). -/
def blocks6Go : Nat → List Char → List String
  | 0, _ => []
  | fuel + 1, cs =>
    if 6 ≤ cs.length then (⟨cs.take 6⟩ : String) :: blocks6Go fuel (cs.drop 6)
    else []

/-- The `⌊length/6⌋` leading disjoint 6-character blocks of a run. -/
def blocks6 (cs : List Char) : List String :=
  blocks6Go cs.length cs

/-- Modelled from the spec: "the set of maximal runs of exactly 6
consecutive digits occurring in the text" — the reading of claim C1 under
test, to be compared with what `findall6` computes. -/
def specMaximalSixRuns (text : String) : Finset String :=
  (((digitRuns text.data).filter fun r => r.length == 6).map
    fun r => (⟨r⟩ : String)).toFinset

/-! ## sheet_manager.py: Python optional values and the row store -/

/-- A Python value as passed for the optional arguments of
`add_or_update_stock`: `None`, an `int`, a `float` (kept symbolic as a
decimal mantissa/exponent pair; the source only ever produces `0.0`), or a
`str`. -/
inductive PyVal where
  | none : PyVal
  | int (n : Int) : PyVal
  | float (mantissa : Int) (exponent : Int) : PyVal
  | str (s : String) : PyVal
deriving DecidableEq

/-- Python truthiness: `None`, `0`, `0.0` and `""` are falsy. -/
def PyVal.truthy : PyVal → Bool
  | PyVal.none => false
  | PyVal.int n => !(n == 0)
  | PyVal.float m _ => !(m == 0)
  | PyVal.str s => !(s == "")

/-- Python's `x or d`: `x` when truthy, else `d`. -/
def pyOr (v d : PyVal) : PyVal :=
  if v.truthy then v else d

/-- One data row of the worksheet: the key (first) column holds the code,
columns 2–4 hold BuyDate, Qty, Price. -/
structure Row where
  code : String
  date : PyVal
  qty : PyVal
  price : PyVal
deriving DecidableEq

/-- `sheet.find(code)` as declared by the spec's row store interface:
the first row whose key (first) column equals the code, as an index. -/
def findRow (rows : List Row) (code : String) : Option Nat :=
  match rows with
  | [] => Option.none
  | r :: rest =>
    if r.code == code then Option.some 0
    else (findRow rest code).map (· + 1)

/-- `SheetManager.add_or_update_stock`: substitute defaults for falsy
optional arguments (`date or today`, `qty or 0`, `price or 0.0`); if a row
with the code exists, overwrite its columns 2–4 in place and report
"Updated", else append `[code, date, qty, price]` and report "Added". -/
def add_or_update_stock (rows : List Row) (today : String) (code : String)
    (date qty price : PyVal) : List Row × String :=
  let date := pyOr date (PyVal.str today)
  let qty := pyOr qty (PyVal.int 0)
  let price := pyOr price (PyVal.float 0 0)
  match findRow rows code with
  | Option.some i =>
    match rows.get? i with
    | Option.some r =>
      (rows.set i { r with date := date, qty := qty, price := price }, "Updated")
    | Option.none => (rows, "Updated")
  | Option.none =>
    (rows ++ [⟨code, date, qty, price⟩], "Added")

/-- `SheetManager.remove_stock`: delete the found row and report `true`;
report `false` when no row matches (`CellNotFound`). -/
def remove_stock (rows : List Row) (code : String) : List Row × Bool :=
  match findRow rows code with
  | Option.some i => (rows.eraseIdx i, true)
  | Option.none => (rows, false)

/-! ## sheet_manager.py: get_all_stocks -/

/-- A record of `get_all_records`: an association of header labels to cell
values (both already stringified). -/
def SheetRecord : Type := List (String × String)

/-- `next((k for k in row.keys() if 'Code' in str(k)), None)`: the first
key containing the substring `Code`. -/
def codeKey (row : SheetRecord) : Option String :=
  (row.map Prod.fst).find? fun k => hasSub k.data "Code".data

/-- `row.get(k, '')`: the value under a key, defaulting to the empty
string. -/
def rowGet (row : SheetRecord) (k : String) : String :=
  ((row.find? fun p => p.1 == k).map Prod.snd).getD ""

/-- `str(x).strip() or d`, the per-field fallback of `get_all_stocks`. -/
def strOr (s d : String) : String :=
  if s == "" then d else s

/-- The value stored for one stock. -/
structure StockInfo where
  date : String
  qty : String
  price : String
deriving DecidableEq

/-- The stripped key-column value of a record, when the record resolves a
code key and the stripped value is non-empty (otherwise the record is
skipped). -/
def rowCode (row : SheetRecord) : Option String :=
  match codeKey row with
  | Option.none => Option.none
  | Option.some k =>
    let c := pyStrip (rowGet row k)
    if c = "" then Option.none else Option.some c

/-- The `StockInfo` extracted from one record, with defaults for missing
or blank fields: today's date, `"0"`, `"0.0"`. -/
def recordInfo (today : String) (row : SheetRecord) : StockInfo :=
  ⟨strOr (pyStrip (rowGet row "BuyDate")) today,
   strOr (pyStrip (rowGet row "Qty")) "0",
   strOr (pyStrip (rowGet row "Price")) "0.0"⟩

/-- Python `dict` assignment `d[k] = v` on an insertion-ordered association
list: replace in place when the key is present, else append. -/
def dictInsert (d : List (String × StockInfo)) (k : String) (v : StockInfo) :
    List (String × StockInfo) :=
  if d.any fun p => p.1 == k then
    d.map fun p => if p.1 == k then (k, v) else p
  else
    d ++ [(k, v)]

/-- One iteration of the record loop of `get_all_stocks`: skip records
without a resolvable, non-blank code, otherwise assign
`stocks[code] = {...}`. -/
def recStep (today : String) (acc : List (String × StockInfo)) (row : SheetRecord) :
    List (String × StockInfo) :=
  match rowCode row with
  | Option.some c => dictInsert acc c (recordInfo today row)
  | Option.none => acc

/-- `SheetManager.get_all_stocks`: fold the records into a dict, later
records overwriting earlier ones with the same code. -/
def get_all_stocks (today : String) (records : List SheetRecord) :
    List (String × StockInfo) :=
  records.foldl (recStep today) []

/-! ## Helper lemmas about the sorted write -/

theorem sortStocks_sorted (s : Finset String) : List.Sorted strLe (sortStocks s) := by
  rcases s with ⟨val, nd⟩
  induction val using Quotient.inductionOn with
  | h l => exact List.sorted_insertionSort strLe l

theorem mem_sortStocks (s : Finset String) (a : String) :
    a ∈ sortStocks s ↔ a ∈ s := by
  rcases s with ⟨val, nd⟩
  induction val using Quotient.inductionOn with
  | h l =>
    show a ∈ List.insertionSort strLe l ↔ _
    rw [(List.perm_insertionSort strLe l).mem_iff]
    simp [Finset.mem_mk, Multiset.mem_coe]

theorem sortStocks_nodup (s : Finset String) : (sortStocks s).Nodup := by
  rcases s with ⟨val, nd⟩
  induction val using Quotient.inductionOn with
  | h l =>
    exact (List.perm_insertionSort strLe l).nodup_iff.mpr (Multiset.coe_nodup.mp nd)

theorem sortStocks_toFinset (s : Finset String) : (sortStocks s).toFinset = s :=
  Finset.ext fun a => by rw [List.mem_toFinset, mem_sortStocks]

theorem sortStocks_empty : sortStocks ∅ = [] := rfl

/-! ## Claim C2 -/

/-- C2: with `clearRequested = true` the reconciler's final set is exactly
`intent.codesFound`, whatever the existing set was; the file written then
holds exactly those codes. -/
theorem clear_replaces_with_batch_codes :
    ∀ (existing codes : Finset String),
      (reconcile existing codes true).1 = codes ∧
      (∀ file, (applyIntent file codes true).1 = Option.some (sortStocks codes)) ∧
      (sortStocks codes).toFinset = codes := by
  intro existing codes
  refine ⟨?_, ?_, sortStocks_toFinset codes⟩
  · simp [reconcile]
  · intro file
    simp [applyIntent, reconcile]

/-! ## Claim C3 -/

/-- C3: applying `Intent{codes = A, no clear}` and then
`Intent{codes = B, no clear}` yields the same final set as applying
`Intent{codes = A ∪ B, no clear}` once. -/
theorem sequential_adds_equal_union :
    ∀ (existing A B : Finset String),
      (reconcile (reconcile existing A false).1 B false).1 =
        (reconcile existing (A ∪ B) false).1 := by
  intro existing A B
  by_cases hA : A = ∅ <;> by_cases hB : B = ∅ <;>
    simp [reconcile, hA, hB, Finset.union_eq_empty, Finset.union_assoc]

/-! ## Claim C4 -/

/-- C4: a write happens iff a clear was requested or at least one code was
found; an empty intent leaves the file untouched; a clear with no codes
still writes, emptying the file. -/
theorem write_iff_clear_or_codes :
    ∀ (file : Option (List String)) (codes : Finset String) (clear : Bool),
      ((applyIntent file codes clear).2 = true ↔ (clear = true ∨ codes ≠ ∅)) ∧
      applyIntent file ∅ false = (file, false) ∧
      applyIntent file ∅ true = (Option.some [], true) := by
  intro file codes clear
  refine ⟨?_, ?_, ?_⟩
  · by_cases h : codes ≠ ∅ ∨ clear = true
    · simp [applyIntent, reconcile, h]
      tauto
    · push_neg at h
      simp [applyIntent, reconcile, h.1, h.2]
  · simp [applyIntent, reconcile]
  · simp [applyIntent, reconcile, sortStocks_empty]

/-! ## Claim C10 -/

/-- C10: `add_or_update_stock` substitutes its defaults whenever a supplied
optional value is Python-falsy: `date = ""`, `qty = 0` and `price = 0`
(int) store today's date, `0` and `0.0` respectively, while the truthy
string `"0"` is stored as given. -/
theorem falsy_arguments_get_defaults :
    ∀ (today code : String) (d q p : PyVal),
      add_or_update_stock [] today code d q p =
        ([⟨code, if d.truthy then d else PyVal.str today,
            if q.truthy then q else PyVal.int 0,
            if p.truthy then p else PyVal.float 0 0⟩], "Added") ∧
      add_or_update_stock [] today code (PyVal.str "") (PyVal.int 0) (PyVal.int 0) =
        ([⟨code, PyVal.str today, PyVal.int 0, PyVal.float 0 0⟩], "Added") ∧
      add_or_update_stock [⟨code, PyVal.none, PyVal.none, PyVal.none⟩] today code
          (PyVal.str "") (PyVal.int 0) (PyVal.int 0) =
        ([⟨code, PyVal.str today, PyVal.int 0, PyVal.float 0 0⟩], "Updated") ∧
      add_or_update_stock [] today code PyVal.none (PyVal.str "0") PyVal.none =
        ([⟨code, PyVal.str today, PyVal.str "0", PyVal.float 0 0⟩], "Added") := by
  intro today code d q p
  refine ⟨?_, ?_, ?_, ?_⟩ <;>
    simp [add_or_update_stock, findRow, pyOr, PyVal.truthy]

/-! ## Helper lemmas about findRow -/

theorem findRow_eq_none (rows : List Row) (code : String) :
    findRow rows code = Option.none ↔ ∀ r ∈ rows, r.code ≠ code := by
  induction rows with
  | nil => simp [findRow]
  | cons r rest ih =>
    by_cases h : r.code = code
    · simp [findRow, h]
    · simp only [findRow, beq_iff_eq, h, if_false, Option.map_eq_none', ih,
        List.mem_cons]
      constructor
      · rintro hall r' (rfl | hr')
        · exact h
        · exact hall r' hr'
      · intro hall r' hr'
        exact hall r' (Or.inr hr')

theorem findRow_spec (rows : List Row) (code : String) :
    ∀ i, findRow rows code = Option.some i →
      ∃ r, rows.get? i = Option.some r ∧ r.code = code := by
  induction rows with
  | nil => intro i h; simp [findRow] at h
  | cons r rest ih =>
    intro i h
    by_cases hr : r.code = code
    · simp only [findRow, beq_iff_eq, hr, if_true, Option.some.injEq] at h
      subst h
      exact ⟨r, rfl, hr⟩
    · simp only [findRow, beq_iff_eq, hr, if_false, Option.map_eq_some'] at h
      obtain ⟨j, hj, rfl⟩ := h
      obtain ⟨r', hget, hcode⟩ := ih j hj
      exact ⟨r', by simpa using hget, hcode⟩

/-! ## Claim C5 -/

/-- C5: `add_or_update_stock` locates a row by exact code match in the key
column; on a hit it overwrites that row's date/qty/price columns in place
(same length, "Updated"), on a miss it appends one new row ("Added"); the
"600970" scenario produces one row, first "Added" then "Updated" with the
new qty and no duplicate row. -/
theorem add_or_update_find_or_append :
    ∀ (rows : List Row) (today code : String) (d q p : PyVal),
      ((∀ r ∈ rows, r.code ≠ code) →
        add_or_update_stock rows today code d q p =
          (rows ++ [⟨code, pyOr d (PyVal.str today), pyOr q (PyVal.int 0),
              pyOr p (PyVal.float 0 0)⟩], "Added")) ∧
      (∀ i, findRow rows code = Option.some i →
        (∃ r, rows.get? i = Option.some r ∧ r.code = code) ∧
        add_or_update_stock rows today code d q p =
          (rows.set i ⟨code, pyOr d (PyVal.str today), pyOr q (PyVal.int 0),
              pyOr p (PyVal.float 0 0)⟩, "Updated") ∧
        (rows.set i ⟨code, pyOr d (PyVal.str today), pyOr q (PyVal.int 0),
            pyOr p (PyVal.float 0 0)⟩).length = rows.length) ∧
      add_or_update_stock [] today "600970" PyVal.none (PyVal.str "100") PyVal.none =
        ([⟨"600970", PyVal.str today, PyVal.str "100", PyVal.float 0 0⟩], "Added") ∧
      ∀ today2, add_or_update_stock
          [⟨"600970", PyVal.str today, PyVal.str "100", PyVal.float 0 0⟩]
          today2 "600970" PyVal.none (PyVal.str "200") PyVal.none =
        ([⟨"600970", PyVal.str today2, PyVal.str "200", PyVal.float 0 0⟩], "Updated") := by
  intro rows today code d q p
  refine ⟨?_, ?_, ?_, ?_⟩
  · intro h
    have hn : findRow rows code = Option.none := (findRow_eq_none rows code).mpr h
    simp [add_or_update_stock, hn]
  · intro i hi
    obtain ⟨r, hget, hcode⟩ := findRow_spec rows code i hi
    refine ⟨⟨r, hget, hcode⟩, ?_, by simp⟩
    have hget' : rows[i]? = Option.some r := by
      simpa [← List.get?_eq_getElem?] using hget
    obtain ⟨rc, rd, rq, rp⟩ := r
    simp only at hcode
    subst hcode
    simp [add_or_update_stock, hi, hget']
  · simp [add_or_update_stock, findRow, pyOr, PyVal.truthy]
  · intro today2
    simp [add_or_update_stock, findRow, pyOr, PyVal.truthy]

theorem add_or_update_witness :
    add_or_update_stock [] "2025-01-02" "600970" PyVal.none (PyVal.str "100") PyVal.none =
      ([⟨"600970", PyVal.str "2025-01-02", PyVal.str "100", PyVal.float 0 0⟩], "Added") ∧
    add_or_update_stock
        [⟨"600970", PyVal.str "2025-01-02", PyVal.str "100", PyVal.float 0 0⟩]
        "2025-01-03" "600970" PyVal.none (PyVal.str "200") PyVal.none =
      ([⟨"600970", PyVal.str "2025-01-03", PyVal.str "200", PyVal.float 0 0⟩], "Updated") :=
  ⟨(add_or_update_find_or_append [] "2025-01-02" "600970"
      PyVal.none (PyVal.str "100") PyVal.none).1 (by simp),
   by
    have h := ((add_or_update_find_or_append
      [⟨"600970", PyVal.str "2025-01-02", PyVal.str "100", PyVal.float 0 0⟩]
      "2025-01-03" "600970" PyVal.none (PyVal.str "200") PyVal.none).2.1 0
      (by decide)).2.1
    simpa [pyOr, PyVal.truthy] using h⟩

/-! ## Claim C8 -/

/-- C8: `remove_stock` on a code with no matching row returns `false` and
leaves the store (and its row count) unchanged; on a matching row it
deletes exactly that row and returns `true`. -/
theorem remove_stock_missing_is_noop :
    ∀ (rows : List Row) (code : String),
      ((∀ r ∈ rows, r.code ≠ code) → remove_stock rows code = (rows, false)) ∧
      (∀ i, findRow rows code = Option.some i →
        (∃ r, rows.get? i = Option.some r ∧ r.code = code) ∧
        remove_stock rows code = (rows.eraseIdx i, true) ∧
        (rows.eraseIdx i).length + 1 = rows.length) ∧
      ((remove_stock rows code).2 = false → remove_stock rows code = (rows, false)) := by
  intro rows code
  refine ⟨?_, ?_, ?_⟩
  · intro h
    have hn : findRow rows code = Option.none := (findRow_eq_none rows code).mpr h
    simp [remove_stock, hn]
  · intro i hi
    obtain ⟨r, hget, hcode⟩ := findRow_spec rows code i hi
    have hlt : i < rows.length := by
      by_contra hge
      rw [List.get?_eq_none.mpr (le_of_not_lt hge)] at hget
      exact Option.noConfusion hget
    refine ⟨⟨r, hget, hcode⟩, by simp [remove_stock, hi], ?_⟩
    exact List.length_eraseIdx_add_one hlt
  · intro h
    cases hf : findRow rows code with
    | none => simp [remove_stock, hf]
    | some i => simp [remove_stock, hf] at h

theorem remove_stock_witness :
    remove_stock [⟨"600970", PyVal.none, PyVal.none, PyVal.none⟩] "600968" =
      ([⟨"600970", PyVal.none, PyVal.none, PyVal.none⟩], false) ∧
    remove_stock [⟨"600970", PyVal.none, PyVal.none, PyVal.none⟩] "600970" = ([], true) :=
  ⟨(remove_stock_missing_is_noop [⟨"600970", PyVal.none, PyVal.none, PyVal.none⟩]
      "600968").1 (by decide),
   ((remove_stock_missing_is_noop [⟨"600970", PyVal.none, PyVal.none, PyVal.none⟩]
      "600970").2.1 0 (by decide)).2.1⟩

/-! ## Claim C7 -/

/-- C7: a message that fails the authorization check (an authorized sender
is configured and differs) or the 2400-second freshness check contributes
nothing to the extracted codes or flags: appending it to any batch leaves
`codesFound`, `clearRequested` and `viewRequested` unchanged, while its
sequence number still enters the tracked maximum. -/
theorem skipped_message_only_advances_sequence :
    ∀ (admin : Option String) (now : Int) (updates : List Message) (m : Message),
      skipMessage admin now m = true →
      extractIntent admin now (updates ++ [m]) =
        { extractIntent admin now updates with
            latestUpdateId :=
              max (extractIntent admin now updates).latestUpdateId m.updateId } := by
  intro admin now updates m h
  unfold extractIntent
  rw [List.foldl_append]
  simp [stepMessage, h]

theorem skipped_message_witness :
    skipMessage (Option.some "boss") 0 ⟨"intruder", "999999 清空", 0, 7⟩ = true ∧
    extractIntent (Option.some "boss") 0
        ([⟨"boss", "600970", 0, 3⟩] ++ [⟨"intruder", "999999 清空", 0, 7⟩]) =
      { extractIntent (Option.some "boss") 0 [⟨"boss", "600970", 0, 3⟩] with
          latestUpdateId :=
            max (extractIntent (Option.some "boss") 0
              [⟨"boss", "600970", 0, 3⟩]).latestUpdateId 7 } :=
  ⟨by decide,
   skipped_message_only_advances_sequence (Option.some "boss") 0
     [⟨"boss", "600970", 0, 3⟩] ⟨"intruder", "999999 清空", 0, 7⟩ (by decide)⟩

/-! ## Claim C6 -/

/-- C6: whenever the reconciler writes, the file it produces is exactly the
final set sorted ascending: one code per line, duplicate-free, no header or
trailing metadata, in lexicographic order. -/
theorem written_file_is_sorted_set :
    ∀ (file : Option (List String)) (codes : Finset String) (clear : Bool)
      (ls : List String),
      (applyIntent file codes clear).1 = Option.some ls →
      (applyIntent file codes clear).2 = true →
      ls = sortStocks (reconcile (existingOf file) codes clear).1 ∧
      List.Sorted strLe ls ∧ ls.Nodup ∧
      ls.toFinset = (reconcile (existingOf file) codes clear).1 := by
  intro file codes clear ls h1 h2
  have hw : (reconcile (existingOf file) codes clear).2 = true := by
    by_contra hfalse
    simp [applyIntent, hfalse] at h2
  have hls : ls = sortStocks (reconcile (existingOf file) codes clear).1 := by
    simp [applyIntent, hw] at h1
    exact h1.symm
  subst hls
  exact ⟨rfl, sortStocks_sorted _, sortStocks_nodup _, sortStocks_toFinset _⟩

theorem written_file_witness :
    (applyIntent (Option.some ["abc"]) {"600970", "600968"} false).1 =
      Option.some ["600968", "600970", "abc"] ∧
    (applyIntent (Option.some ["abc"]) {"600970", "600968"} false).2 = true ∧
    List.Sorted strLe ["600968", "600970", "abc"] ∧
    List.Nodup ["600968", "600970", "abc"] ∧
    List.toFinset ["600968", "600970", "abc"] =
      (reconcile (existingOf (Option.some ["abc"])) {"600970", "600968"} false).1 :=
  ⟨by decide, by decide,
   (written_file_is_sorted_set (Option.some ["abc"]) {"600970", "600968"} false
     ["600968", "600970", "abc"] (by decide) (by decide)).2.1,
   (written_file_is_sorted_set (Option.some ["abc"]) {"600970", "600968"} false
     ["600968", "600970", "abc"] (by decide) (by decide)).2.2.1,
   (written_file_is_sorted_set (Option.some ["abc"]) {"600970", "600968"} false
     ["600968", "600970", "abc"] (by decide) (by decide)).2.2.2⟩

/-! ## Helper lemmas about dictInsert (Python dict assignment) -/

theorem replace_app (k : String) (v : StockInfo) (a : String) (b : StockInfo) :
    (if ((a, b) : String × StockInfo).1 == k then (k, v) else (a, b)) =
      if a = k then (k, v) else (a, b) := by
  by_cases hak : a = k <;> simp [hak]

theorem map_fst_replace (d : List (String × StockInfo)) (k : String) (v : StockInfo) :
    (d.map fun p => if p.1 == k then (k, v) else p).map Prod.fst = d.map Prod.fst := by
  induction d with
  | nil => rfl
  | cons p rest ih =>
    obtain ⟨a, b⟩ := p
    rw [List.map_cons, replace_app, List.map_cons, List.map_cons, ih]
    by_cases hak : a = k
    · subst hak
      simp
    · simp [hak]

theorem lookup_map_replace_self (d : List (String × StockInfo)) (k : String)
    (v : StockInfo) (h : (d.any fun p => p.1 == k) = true) :
    List.lookup k (d.map fun p => if p.1 == k then (k, v) else p) = Option.some v := by
  induction d with
  | nil => simp at h
  | cons p rest ih =>
    obtain ⟨a, b⟩ := p
    rw [List.map_cons, replace_app]
    by_cases hak : a = k
    · subst hak
      simp [List.lookup_cons]
    · have h' : (rest.any fun p => p.1 == k) = true := by
        simpa [hak] using h
      rw [if_neg hak]
      simp only [List.lookup_cons, beq_false_of_ne (Ne.symm hak), cond_false]
      simpa using ih h'

theorem lookup_map_replace_ne (d : List (String × StockInfo)) (k c : String)
    (v : StockInfo) (hck : c ≠ k) :
    List.lookup c (d.map fun p => if p.1 == k then (k, v) else p) =
      List.lookup c d := by
  induction d with
  | nil => rfl
  | cons p rest ih =>
    obtain ⟨a, b⟩ := p
    rw [List.map_cons, replace_app]
    by_cases hak : a = k
    · subst hak
      rw [if_pos rfl]
      simp only [List.lookup_cons, beq_false_of_ne hck, cond_false]
      simpa using ih
    · rw [if_neg hak]
      by_cases hca : c = a
      · subst hca
        simp [List.lookup_cons]
      · simp only [List.lookup_cons, beq_false_of_ne hca, cond_false]
        simpa using ih

theorem lookup_append_singleton_self (d : List (String × StockInfo)) (k : String)
    (v : StockInfo) (h : (d.any fun p => p.1 == k) = false) :
    List.lookup k (d ++ [(k, v)]) = Option.some v := by
  induction d with
  | nil => simp [List.lookup]
  | cons p rest ih =>
    obtain ⟨a, b⟩ := p
    simp only [List.any_cons, Bool.or_eq_false_iff] at h
    have hka : k ≠ a := fun hk => by simp [hk.symm] at h
    simp [List.lookup_cons, beq_false_of_ne hka, ih h.2]

theorem lookup_append_singleton_ne (d : List (String × StockInfo)) (k c : String)
    (v : StockInfo) (hck : c ≠ k) :
    List.lookup c (d ++ [(k, v)]) = List.lookup c d := by
  induction d with
  | nil => simp [List.lookup_cons, beq_false_of_ne hck, List.lookup]
  | cons p rest ih =>
    obtain ⟨a, b⟩ := p
    by_cases hca : c = a
    · subst hca
      simp [List.lookup_cons]
    · simp [List.lookup_cons, beq_false_of_ne hca, ih]

theorem lookup_dictInsert_self (d : List (String × StockInfo)) (k : String)
    (v : StockInfo) : List.lookup k (dictInsert d k v) = Option.some v := by
  unfold dictInsert
  by_cases h : (d.any fun p => p.1 == k) = true
  · rw [if_pos h]
    exact lookup_map_replace_self d k v h
  · rw [if_neg h]
    exact lookup_append_singleton_self d k v (Bool.not_eq_true _ ▸ h)

theorem lookup_dictInsert_ne (d : List (String × StockInfo)) (k c : String)
    (v : StockInfo) (hck : c ≠ k) :
    List.lookup c (dictInsert d k v) = List.lookup c d := by
  unfold dictInsert
  by_cases h : (d.any fun p => p.1 == k) = true
  · rw [if_pos h]
    exact lookup_map_replace_ne d k c v hck
  · rw [if_neg h]
    exact lookup_append_singleton_ne d k c v hck

theorem nodup_keys_dictInsert (d : List (String × StockInfo)) (k : String)
    (v : StockInfo) (h : (d.map Prod.fst).Nodup) :
    ((dictInsert d k v).map Prod.fst).Nodup := by
  unfold dictInsert
  by_cases hany : (d.any fun p => p.1 == k) = true
  · rw [if_pos hany, map_fst_replace]
    exact h
  · rw [if_neg hany]
    have hk : k ∉ d.map Prod.fst := by
      intro hmem
      obtain ⟨p, hp, hfst⟩ := List.mem_map.mp hmem
      have : (d.any fun p => p.1 == k) = true :=
        List.any_eq_true.mpr ⟨p, hp, beq_iff_eq.mpr hfst⟩
      exact hany this
    simp only [List.map_append, List.map_cons, List.map_nil]
    rw [List.nodup_append]
    exact ⟨h, List.nodup_singleton k, by simpa using hk⟩

/-! ## Claim C9 -/

/-- C9: `get_all_stocks` returns at most one entry per code, and when
several records carry the same (stripped) code the returned entry holds the
fields of the last such record in sheet order. -/
theorem get_all_stocks_last_row_wins :
    ∀ (today : String) (records : List SheetRecord),
      ((get_all_stocks today records).map Prod.fst).Nodup ∧
      ∀ c : String,
        List.lookup c (get_all_stocks today records) =
          ((records.filter fun row => rowCode row == Option.some c).getLast?).map
            (recordInfo today) := by
  intro today records
  induction records using List.reverseRecOn with
  | nil => exact ⟨List.nodup_nil, fun c => rfl⟩
  | append_singleton rs row ih =>
    have hstep : get_all_stocks today (rs ++ [row]) =
        recStep today (get_all_stocks today rs) row := by
      simp [get_all_stocks, List.foldl_append]
    cases hrc : rowCode row with
    | none =>
      rw [hstep]
      unfold recStep
      rw [hrc]
      refine ⟨ih.1, fun c => ?_⟩
      have hfilt : ((rs ++ [row]).filter fun r => rowCode r == Option.some c) =
          rs.filter fun r => rowCode r == Option.some c := by
        rw [List.filter_append]
        simp [List.filter, hrc]
      rw [hfilt]
      exact ih.2 c
    | some c0 =>
      rw [hstep]
      unfold recStep
      rw [hrc]
      refine ⟨nodup_keys_dictInsert _ _ _ ih.1, fun c => ?_⟩
      by_cases hc : c = c0
      · subst hc
        have hfilt : ((rs ++ [row]).filter fun r => rowCode r == Option.some c) =
            (rs.filter fun r => rowCode r == Option.some c) ++ [row] := by
          rw [List.filter_append]
          simp [List.filter, hrc]
        rw [lookup_dictInsert_self, hfilt, List.getLast?_append_cons]
        rfl
      · have hfilt : ((rs ++ [row]).filter fun r => rowCode r == Option.some c) =
            rs.filter fun r => rowCode r == Option.some c := by
          rw [List.filter_append]
          simp [List.filter, hrc, beq_false_of_ne (Ne.symm hc)]
        rw [lookup_dictInsert_ne _ _ _ _ hc, hfilt]
        exact ih.2 c

/-! ## Helper lemmas: equations for the fuel-driven scanners -/

theorem findall6Go_nil : ∀ n, findall6Go n [] = [] := by
  intro n
  cases n <;> rfl

theorem findall6Go_cons (n : Nat) (c : Char) (rest : List Char) :
    findall6Go (n + 1) (c :: rest) =
      if 6 ≤ (c :: rest).length ∧ ((c :: rest).take 6).all Char.isDigit then
        (⟨(c :: rest).take 6⟩ : String) :: findall6Go n ((c :: rest).drop 6)
      else findall6Go n rest := rfl

theorem findall6Go_congr : ∀ n m (cs : List Char), cs.length ≤ n → cs.length ≤ m →
    findall6Go n cs = findall6Go m cs := by
  intro n
  induction n with
  | zero =>
    intro m cs hn _
    have : cs = [] := List.length_eq_zero.mp (Nat.le_zero.mp hn)
    subst this
    rw [findall6Go_nil, findall6Go_nil]
  | succ n ih =>
    intro m cs hn hm
    cases cs with
    | nil => rw [findall6Go_nil, findall6Go_nil]
    | cons c rest =>
      cases m with
      | zero => simp at hm
      | succ m =>
        rw [findall6Go_cons, findall6Go_cons]
        by_cases h : 6 ≤ (c :: rest).length ∧ ((c :: rest).take 6).all Char.isDigit
        · rw [if_pos h, if_pos h]
          have hd : ((c :: rest).drop 6).length ≤ n := by
            simp only [List.length_drop, List.length_cons]
            simp only [List.length_cons] at hn
            omega
          have hd2 : ((c :: rest).drop 6).length ≤ m := by
            simp only [List.length_drop, List.length_cons]
            simp only [List.length_cons] at hm
            omega
          rw [ih m _ hd hd2]
        · rw [if_neg h, if_neg h]
          have h1 : rest.length ≤ n := by
            simp only [List.length_cons] at hn
            omega
          have h2 : rest.length ≤ m := by
            simp only [List.length_cons] at hm
            omega
          rw [ih m rest h1 h2]

theorem findall6Go_eq (n : Nat) (cs : List Char) (h : cs.length ≤ n) :
    findall6Go n cs = findall6 cs :=
  findall6Go_congr n cs.length cs h le_rfl

theorem findall6_cons_pos (c : Char) (rest : List Char)
    (h : 6 ≤ (c :: rest).length ∧ ((c :: rest).take 6).all Char.isDigit) :
    findall6 (c :: rest) =
      (⟨(c :: rest).take 6⟩ : String) :: findall6 ((c :: rest).drop 6) := by
  show findall6Go (c :: rest).length (c :: rest) = _
  rw [List.length_cons, findall6Go_cons, if_pos h,
    findall6Go_eq rest.length _ (by simp only [List.length_drop, List.length_cons]; omega)]

theorem findall6_cons_neg (c : Char) (rest : List Char)
    (h : ¬(6 ≤ (c :: rest).length ∧ ((c :: rest).take 6).all Char.isDigit)) :
    findall6 (c :: rest) = findall6 rest := by
  show findall6Go (c :: rest).length (c :: rest) = _
  rw [List.length_cons, findall6Go_cons, if_neg h, findall6Go_eq rest.length rest le_rfl]

theorem blocks6Go_nil : ∀ n, blocks6Go n [] = [] := by
  intro n
  cases n <;> rfl

theorem blocks6Go_succ (n : Nat) (cs : List Char) :
    blocks6Go (n + 1) cs =
      if 6 ≤ cs.length then (⟨cs.take 6⟩ : String) :: blocks6Go n (cs.drop 6)
      else [] := rfl

theorem blocks6Go_congr : ∀ n m (cs : List Char), cs.length ≤ n → cs.length ≤ m →
    blocks6Go n cs = blocks6Go m cs := by
  intro n
  induction n with
  | zero =>
    intro m cs hn _
    have : cs = [] := List.length_eq_zero.mp (Nat.le_zero.mp hn)
    subst this
    rw [blocks6Go_nil, blocks6Go_nil]
  | succ n ih =>
    intro m cs hn hm
    cases m with
    | zero =>
      have : cs = [] := List.length_eq_zero.mp (Nat.le_zero.mp hm)
      subst this
      rw [blocks6Go_nil, blocks6Go_nil]
    | succ m =>
      rw [blocks6Go_succ, blocks6Go_succ]
      by_cases h : 6 ≤ cs.length
      · rw [if_pos h, if_pos h,
          ih m _ (by simp only [List.length_drop]; omega)
            (by simp only [List.length_drop]; omega)]
      · rw [if_neg h, if_neg h]

theorem blocks6_lt (cs : List Char) (h : cs.length < 6) : blocks6 cs = [] := by
  show blocks6Go cs.length cs = []
  cases hl : cs.length with
  | zero => rfl
  | succ m =>
    rw [blocks6Go_succ, if_neg (by omega)]

theorem blocks6_ge (cs : List Char) (h : 6 ≤ cs.length) :
    blocks6 cs = (⟨cs.take 6⟩ : String) :: blocks6 (cs.drop 6) := by
  show blocks6Go cs.length cs = _
  obtain ⟨m, hm⟩ : ∃ m, cs.length = m + 1 := ⟨cs.length - 1, by omega⟩
  rw [hm, blocks6Go_succ, if_pos h]
  congr 1
  exact blocks6Go_congr m (cs.drop 6).length _
    (by simp only [List.length_drop]; omega) le_rfl

/-! ## Helper lemmas: maximal digit runs -/

theorem head_dropWhile_false (p : Char → Bool) :
    ∀ (l : List Char) (d : Char), (l.dropWhile p).head? = Option.some d → p d = false := by
  intro l
  induction l with
  | nil => intro d h; simp [List.dropWhile] at h
  | cons c rest ih =>
    intro d h
    by_cases hc : p c = true
    · rw [List.dropWhile_cons_of_pos hc] at h
      exact ih d h
    · rw [List.dropWhile_cons_of_neg hc] at h
      simp only [List.head?_cons, Option.some.injEq] at h
      subst h
      exact Bool.not_eq_true _ ▸ hc

theorem digitRunsGo_digits : ∀ (r acc rest : List Char), r.all Char.isDigit = true →
    digitRunsGo acc (r ++ rest) = digitRunsGo (r.reverse ++ acc) rest := by
  intro r
  induction r with
  | nil => intro acc rest _; simp
  | cons c r' ih =>
    intro acc rest h
    simp only [List.all_cons, Bool.and_eq_true] at h
    show digitRunsGo acc (c :: (r' ++ rest)) = _
    rw [show digitRunsGo acc (c :: (r' ++ rest)) =
        digitRunsGo (c :: acc) (r' ++ rest) by simp [digitRunsGo, h.1]]
    rw [ih (c :: acc) rest h.2]
    congr 1
    simp

theorem digitRunsGo_flush (acc rest : List Char) (hacc : acc ≠ [])
    (hrest : ∀ d, rest.head? = Option.some d → d.isDigit = false) :
    digitRunsGo acc rest = acc.reverse :: digitRunsGo [] rest := by
  cases rest with
  | nil => simp [digitRunsGo, hacc]
  | cons d rest' =>
    have hd : d.isDigit = false := hrest d rfl
    simp [digitRunsGo, hd, hacc]

theorem digitRuns_cons_nondigit (c : Char) (rest : List Char) (h : c.isDigit = false) :
    digitRuns (c :: rest) = digitRuns rest := by
  simp [digitRuns, digitRunsGo, h]

theorem digitRuns_run (r rest : List Char) (hne : r ≠ [])
    (hr : r.all Char.isDigit = true)
    (hrest : ∀ d, rest.head? = Option.some d → d.isDigit = false) :
    digitRuns (r ++ rest) = r :: digitRuns rest := by
  show digitRunsGo [] (r ++ rest) = _
  rw [digitRunsGo_digits r [] rest hr]
  rw [List.append_nil]
  rw [digitRunsGo_flush r.reverse rest (by simpa using hne) hrest]
  simp [digitRuns]

/-! ## Helper lemmas: findall6 versus greedy blocks of maximal runs -/

theorem findall6_run_append : ∀ (n : Nat) (r rest : List Char), r.length ≤ n →
    r.all Char.isDigit = true →
    (∀ d, rest.head? = Option.some d → d.isDigit = false) →
    findall6 (r ++ rest) = blocks6 r ++ findall6 rest := by
  intro n
  induction n with
  | zero =>
    intro r rest hn _ _
    have : r = [] := List.length_eq_zero.mp (Nat.le_zero.mp hn)
    subst this
    rw [List.nil_append, blocks6_lt [] (by simp), List.nil_append]
  | succ n ih =>
    intro r rest hn hall hrest
    by_cases h6 : 6 ≤ r.length
    · obtain ⟨c, r', rfl⟩ : ∃ c r', r = c :: r' := by
        cases r with
        | nil => simp at h6
        | cons c r' => exact ⟨c, r', rfl⟩
      have htake : ((c :: r') ++ rest).take 6 = (c :: r').take 6 :=
        List.take_append_of_le_length h6
      have hdrop : ((c :: r') ++ rest).drop 6 = (c :: r').drop 6 ++ rest :=
        List.drop_append_of_le_length h6
      have hcond : 6 ≤ (c :: (r' ++ rest)).length ∧
          ((c :: (r' ++ rest)).take 6).all Char.isDigit := by
        constructor
        · simp only [List.length_cons, List.length_append]
          simp only [List.length_cons] at h6
          omega
        · rw [show c :: (r' ++ rest) = (c :: r') ++ rest from rfl, htake]
          refine List.all_eq_true.mpr fun x hx => ?_
          exact List.all_eq_true.mp hall x (List.take_subset 6 (c :: r') hx)
      have hstep := findall6_cons_pos c (r' ++ rest) hcond
      rw [show (c :: r') ++ rest = c :: (r' ++ rest) from rfl, hstep]
      rw [show c :: (r' ++ rest) = (c :: r') ++ rest from rfl, htake, hdrop]
      have hlen2 : ((c :: r').drop 6).length ≤ n := by
        simp only [List.length_drop]
        simp only [List.length_cons] at hn ⊢
        omega
      have hall2 : ((c :: r').drop 6).all Char.isDigit = true :=
        List.all_eq_true.mpr fun x hx =>
          List.all_eq_true.mp hall x (List.drop_subset 6 (c :: r') hx)
      rw [ih ((c :: r').drop 6) rest hlen2 hall2 hrest]
      rw [blocks6_ge (c :: r') h6]
      rfl
    · push_neg at h6
      cases r with
      | nil =>
        rw [List.nil_append, blocks6_lt [] (by simp), List.nil_append]
      | cons c r' =>
        have hcr : (c :: r').length < 6 := h6
        have hcond : ¬(6 ≤ (c :: (r' ++ rest)).length ∧
            ((c :: (r' ++ rest)).take 6).all Char.isDigit) := by
          rintro ⟨hlen, hall6⟩
          cases rest with
          | nil =>
            simp only [List.length_cons, List.length_append, List.length_nil] at hlen
            simp only [List.length_cons] at hcr
            omega
          | cons d rest' =>
            have hd : d.isDigit = false := hrest d rfl
            have hmem : d ∈ (c :: (r' ++ d :: rest')).take 6 := by
              rw [show c :: (r' ++ d :: rest') = (c :: r') ++ d :: rest' from rfl,
                List.take_append_eq_append_take]
              have hk : 1 ≤ 6 - (c :: r').length := by
                simp only [List.length_cons] at hcr ⊢
                omega
              obtain ⟨k, hkk⟩ : ∃ k, 6 - (c :: r').length = k + 1 :=
                ⟨6 - (c :: r').length - 1, by omega⟩
              rw [hkk]
              exact List.mem_append_right _ (List.mem_cons_self d _)
            have := List.all_eq_true.mp hall6 d hmem
            rw [hd] at this
            exact Bool.noConfusion this
        have hskip := findall6_cons_neg c (r' ++ rest) hcond
        rw [show (c :: r') ++ rest = c :: (r' ++ rest) from rfl, hskip]
        have hlen2 : r'.length ≤ n := by
          simp only [List.length_cons] at hn
          omega
        have hall2 : r'.all Char.isDigit = true := by
          simp only [List.all_cons, Bool.and_eq_true] at hall
          exact hall.2
        rw [ih r' rest hlen2 hall2 hrest]
        rw [blocks6_lt (c :: r') hcr, blocks6_lt r' (by
          simp only [List.length_cons] at hcr
          omega)]

theorem findall6_eq_blocks_aux : ∀ (n : Nat) (cs : List Char), cs.length ≤ n →
    findall6 cs = ((digitRuns cs).map blocks6).flatten := by
  intro n
  induction n with
  | zero =>
    intro cs hn
    have : cs = [] := List.length_eq_zero.mp (Nat.le_zero.mp hn)
    subst this
    rfl
  | succ n ih =>
    intro cs hn
    cases cs with
    | nil => rfl
    | cons c rest =>
      by_cases hd : c.isDigit = true
      · have hsplit : (c :: rest).takeWhile Char.isDigit ++
            (c :: rest).dropWhile Char.isDigit = c :: rest :=
          List.takeWhile_append_dropWhile Char.isDigit (c :: rest)
        have hrne : (c :: rest).takeWhile Char.isDigit ≠ [] := by
          rw [List.takeWhile_cons_of_pos hd]
          exact List.cons_ne_nil c _
        have hrall : ((c :: rest).takeWhile Char.isDigit).all Char.isDigit = true :=
          List.all_takeWhile
        have hresthead : ∀ d,
            ((c :: rest).dropWhile Char.isDigit).head? = Option.some d →
              d.isDigit = false :=
          fun d h => head_dropWhile_false Char.isDigit (c :: rest) d h
        have hlen2 : ((c :: rest).dropWhile Char.isDigit).length ≤ n := by
          have hsum : ((c :: rest).takeWhile Char.isDigit).length +
              ((c :: rest).dropWhile Char.isDigit).length = (c :: rest).length := by
            rw [← List.length_append, hsplit]
          have h1 : 1 ≤ ((c :: rest).takeWhile Char.isDigit).length := by
            rcases hr : (c :: rest).takeWhile Char.isDigit with _ | ⟨x, xs⟩
            · exact absurd hr hrne
            · simp
          simp only [List.length_cons] at hsum hn
          omega
        rw [← hsplit, findall6_run_append ((c :: rest).takeWhile Char.isDigit).length
          _ _ le_rfl hrall hresthead]
        rw [digitRuns_run _ _ hrne hrall hresthead]
        rw [List.map_cons, List.flatten_cons]
        rw [ih _ hlen2]
      · have hcond : ¬(6 ≤ (c :: rest).length ∧
            ((c :: rest).take 6).all Char.isDigit) := by
          rintro ⟨_, hall6⟩
          have hmem : c ∈ (c :: rest).take 6 := by
            rw [List.take_cons (by omega : 0 < 6)]
            exact List.mem_cons_self c _
          have := List.all_eq_true.mp hall6 c hmem
          rw [Bool.not_eq_true] at hd
          rw [hd] at this
          exact Bool.noConfusion this
        rw [findall6_cons_neg c rest hcond]
        rw [digitRuns_cons_nondigit c rest (Bool.not_eq_true _ ▸ hd)]
        exact ih rest (by simp only [List.length_cons] at hn; omega)

theorem findall6_eq_blocks (cs : List Char) :
    findall6 cs = ((digitRuns cs).map blocks6).flatten :=
  findall6_eq_blocks_aux cs.length cs le_rfl

theorem mem_codesFound_foldl (admin : Option String) (now : Int) :
    ∀ (updates : List Message) (s : Intent) (c : String),
      c ∈ (List.foldl (stepMessage admin now) s updates).codesFound ↔
        c ∈ s.codesFound ∨ ∃ m, m ∈ updates ∧ skipMessage admin now m = false ∧
          c ∈ findall6 m.text.data := by
  intro updates
  induction updates with
  | nil => intro s c; simp
  | cons m ms ih =>
    intro s c
    rw [List.foldl_cons, ih]
    by_cases h : skipMessage admin now m = true
    · simp only [stepMessage, h, if_true]
      constructor
      · rintro (hc | ⟨x, hx, hsk, hcx⟩)
        · exact Or.inl hc
        · exact Or.inr ⟨x, List.mem_cons_of_mem m hx, hsk, hcx⟩
      · rintro (hc | ⟨x, hx, hsk, hcx⟩)
        · exact Or.inl hc
        · rcases List.mem_cons.mp hx with rfl | hx'
          · rw [h] at hsk
            exact Bool.noConfusion hsk
          · exact Or.inr ⟨x, hx', hsk, hcx⟩
    · have h' : skipMessage admin now m = false := by
        rwa [Bool.not_eq_true] at h
      simp only [stepMessage, h', Bool.false_eq_true, if_false]
      constructor
      · rintro (hc | ⟨x, hx, hsk, hcx⟩)
        · rcases Finset.mem_union.mp hc with hc1 | hc2
          · exact Or.inl hc1
          · exact Or.inr ⟨m, List.mem_cons_self m ms, h',
              List.mem_toFinset.mp hc2⟩
        · exact Or.inr ⟨x, List.mem_cons_of_mem m hx, hsk, hcx⟩
      · rintro (hc | ⟨x, hx, hsk, hcx⟩)
        · exact Or.inl (Finset.mem_union_left _ hc)
        · rcases List.mem_cons.mp hx with rfl | hx'
          · exact Or.inl (Finset.mem_union_right _ (List.mem_toFinset.mpr hcx))
          · exact Or.inr ⟨x, hx', hsk, hcx⟩

/-! ## Claim C1 -/

/-- C1 (amended): over a batch, `codesFound` is exactly the set of `\d{6}`
matches of the authorized, fresh messages — duplicate-free and
order-independent (a membership characterization over a `Finset`) — and on
each text the matches are the greedy leading 6-digit blocks of every
maximal digit run (`⌊L/6⌋` codes from a run of length `L`), so a maximal
run of exactly 6 digits contributes itself, while a longer run contributes
its leading blocks rather than nothing. -/
theorem codesFound_are_greedy_blocks_of_runs :
    (∀ (admin : Option String) (now : Int) (updates : List Message) (c : String),
        c ∈ (extractIntent admin now updates).codesFound ↔
          ∃ m, m ∈ updates ∧ skipMessage admin now m = false ∧
            c ∈ findall6 m.text.data) ∧
    ∀ cs : List Char, findall6 cs = ((digitRuns cs).map blocks6).flatten := by
  constructor
  · intro admin now updates c
    rw [extractIntent, mem_codesFound_foldl admin now updates initIntent c]
    simp [initIntent]
  · exact findall6_eq_blocks

/-- C1, counterexample to the claim as stated: on the single authorized,
fresh message "1234567" the code extracts the set {"123456"}, while the
text contains no maximal run of exactly 6 digits, so `codesFound` is not
the set of maximal 6-digit runs. -/
theorem codesFound_not_exact_six_runs :
    (extractIntent (Option.some "boss") 0 [⟨"boss", "1234567", 0, 1⟩]).codesFound ≠
      specMaximalSixRuns "1234567" := by
  decide

end Wyckoff
